import Mathlib

/-!
Verification development for the gate-fidelity module `learner/gates.py`.

The module works on complex matrices in a truncated Fock basis. We embed it
shallowly:

* complex numbers are pairs of rationals (`QC`): the Python code only ever
  applies field operations, conjugation and squared moduli to matrix entries,
  so exact rational arithmetic models the float computation exactly;
* a matrix is a pair of dimensions together with a total entry function
  (`Mat`); NumPy basic slicing `A[:r, :s]` clamps at the array bounds, which
  we model with `min` against the stored dimensions;
* the floating-point expression `int(np.log(rows)/np.log(c))` of `get_modes`
  is embedded as the exact integer logarithm `⌊log rows / log c⌋`
  (`ilogAux`, with a bridge lemma to `Nat.log`) where it has a value, and as
  a crash (`none`) where Python raises: at `c = 1` the divisor `np.log(1)`
  is `0.0`, the quotient is `inf` or `nan`, and `int()` raises
  `OverflowError`/`ValueError`; likewise at `rows = 0`, where `np.log(0)`
  is `-inf` (at `c = 0` with `rows ≥ 1` the quotient is `-0.0` and Python
  returns `0`, matching `ilogAux`).  `np.int(cols**(1/m))` is embedded as
  the exact integer `m`-th root for `m ∈ {1, 2}` (`dOf`);
* the only irrational constants are the `1/√d` state normalisations; each one
  occurs quadratically in every scalar the module returns, so we carry the
  normalisation as an explicit exact factor `1/d` (respectively `1/d²`) in
  the returned rationals, and return state vectors in a scaled representation
  (see `unitary_state_fidelity`);
* Python exceptions (the `ValueError` raised by `max` of an empty sequence in
  `min_cutoff`, and the `UnboundLocalError`/`ZeroDivisionError` fall-through
  of the fidelity functions when the mode count is outside {1, 2}) are
  modelled by `Option`, a crash being `none`.
-/

/-- A complex number with rational real and imaginary parts. -/
structure QC where
  re : ℚ
  im : ℚ
deriving DecidableEq, Repr

def QC.zero : QC := ⟨0, 0⟩

def QC.one : QC := ⟨1, 0⟩

def QC.add (x y : QC) : QC := ⟨x.re + y.re, x.im + y.im⟩

def QC.mul (x y : QC) : QC := ⟨x.re * y.re - x.im * y.im, x.re * y.im + x.im * y.re⟩

/-- Complex conjugate. -/
def QC.conj (x : QC) : QC := ⟨x.re, -x.im⟩

/-- Squared modulus `|z|²`. -/
def QC.normSq (x : QC) : ℚ := x.re * x.re + x.im * x.im

/-- A complex matrix: explicit dimensions plus a total entry function.
Entries are only ever read at indices below the dimensions. -/
structure Mat where
  rows : ℕ
  cols : ℕ
  entry : ℕ → ℕ → QC

/-- Sum of `f 0, …, f (n-1)` in `QC`. -/
def sumQC (n : ℕ) (f : ℕ → QC) : QC := (List.range n).foldl (fun a i => a.add (f i)) QC.zero

/-- Sum of `f 0, …, f (n-1)` in `ℚ`. -/
def sumQ (n : ℕ) (f : ℕ → ℚ) : ℚ := (List.range n).foldl (fun a i => a + f i) 0

/-- The integer logarithm `⌊log_b r⌋` computed with structural fuel
(`ilogAux b fuel r` is correct whenever `r ≤ fuel`, see `ilogAux_eq_log`).
This is `int(np.log(r)/np.log(b))` of the source in exact real arithmetic. -/
def ilogAux (b : ℕ) : ℕ → ℕ → ℕ
  | 0, _ => 0
  | fuel + 1, r => if 2 ≤ b ∧ b ≤ r then ilogAux b fuel (r / b) + 1 else 0

/-- `get_modes(U, cutoff)` of `gates.py`: the number of modes a gate unitary
acts on, `int(np.log(U.shape[0])/np.log(cutoff))`.  At `cutoff = 1` the
divisor `np.log(1) = 0.0` makes the quotient `inf`/`nan` and `int()`
raises; at `rows = 0` the dividend is `-inf` and `int()` raises as well:
both crashes are `none`.  Otherwise the value is the exact integer
logarithm (for `cutoff = 0` the quotient is `-0.0` and Python returns `0`,
as does `ilogAux`). -/
def get_modes (U : Mat) (cutoff : ℕ) : Option ℕ :=
  if cutoff = 1 ∨ U.rows = 0 then none else some (ilogAux cutoff U.rows U.rows)

/-- The integer square root `⌊√n⌋` by downward search, structurally. -/
def isqrtAux (n : ℕ) : ℕ → ℕ
  | 0 => 0
  | k + 1 => if (k + 1) * (k + 1) ≤ n then k + 1 else isqrtAux n k

def isqrt (n : ℕ) : ℕ := isqrtAux n n

/-- The gate truncation `d = np.int(cols**(1/m))` of the source, in exact
arithmetic, for the supported mode counts `m ∈ {1, 2}`.  For any other `m`
the fidelity functions never reach a use of `d` (they crash in Python and
are `none` here), so the value returned for such `m` is irrelevant. -/
def dOf (m cols : ℕ) : ℕ :=
  match m with
  | 1 => cols
  | 2 => isqrt cols
  | _ => 0

/-- Squared Euclidean norm of column `j` of `U[:rlim, :]`:
the square of `scipy.linalg.norm(U[:rlim, :...], axis=0)[j]`. -/
def colSqNorm (U : Mat) (rlim j : ℕ) : ℚ :=
  sumQ (min rlim U.rows) (fun i => (U.entry i j).normSq)

/-- The loop condition `max(1 - norm(U[:n**m, :gc**m], axis=0)) > p` of
`min_cutoff`.  Since column norms are nonnegative, for each column `j` the
real inequality `1 - ‖col_j‖ > p` holds iff `0 < 1 - p` and
`‖col_j‖² < (1-p)²`, which keeps the test inside `ℚ`; the maximum over the
(nonempty) set of columns exceeds `p` iff some column does. -/
def normDropExceeds (U : Mat) (p : ℚ) (gc m n : ℕ) : Bool :=
  (List.range (min (gc ^ m) U.cols)).any
    (fun j => decide (0 < 1 - p ∧ colSqNorm U (n ^ m) j < (1 - p) * (1 - p)))

/-- The descending loop `for n in range(cutoff, gate_cutoff, -1)` of
`min_cutoff`, with the fuel argument being the current `n`.  When the column
range `U[:, :gc**m]` is empty, Python's `max` of an empty sequence raises
`ValueError`: modelled as `none`. -/
def mcLoop (U : Mat) (p : ℚ) (gc m : ℕ) : ℕ → Option ℕ
  | 0 => some (gc + 1)
  | n + 1 =>
    if n + 1 ≤ gc then some (gc + 1)
    else if min (gc ^ m) U.cols = 0 then none
    else if normDropExceeds U p gc m (n + 1) then some (n + 1 + 1)
    else mcLoop U p gc m n

/-- `min_cutoff(U, p, gate_cutoff, cutoff)` of `gates.py`: scan `n` downward
from `cutoff` to `gate_cutoff + 1`; at the first `n` whose column-norm gap
exceeds `p` return `n + 1`, and return `gate_cutoff + 1` if the loop
completes without breaking.  `get_modes` runs before the loop, so its crash
propagates. -/
def min_cutoff (U : Mat) (p : ℚ) (gate_cutoff cutoff : ℕ) : Option ℕ :=
  match get_modes U cutoff with
  | none => none
  | some m => mcLoop U p gate_cutoff m cutoff

/-- The conjugating inner product `np.vdot(a, b) = Σᵢ conj(aᵢ)·bᵢ`. -/
def vdot (a b : List QC) : QC :=
  (a.zip b).foldl (fun s xy => s.add ((QC.conj xy.1).mul xy.2)) QC.zero

/-- The matrix–vector product `A @ v`. -/
def matVec (A : Mat) (v : List QC) : List QC :=
  (List.range A.rows).map (fun i => sumQC A.cols (fun j => (A.entry i j).mul (v.getD j QC.zero)))

/-- The Kronecker product `np.kron(A, B)`. -/
def kron (A B : Mat) : Mat :=
  ⟨A.rows * B.rows, A.cols * B.cols,
    fun i j => (A.entry (i / B.rows) (j / B.cols)).mul (B.entry (i % B.rows) (j % B.cols))⟩

/-- The identity matrix `np.identity(n)`. -/
def idMat (n : ℕ) : Mat := ⟨n, n, fun i j => if i = j then QC.one else QC.zero⟩

/-- The row-major flattening `np.identity(D).flatten()` (length `D²`). -/
def flattenId (D : ℕ) : List QC :=
  (List.range (D * D)).map (fun k => if k / D = k % D then QC.one else QC.zero)

/-- The truncation `A[:d, :d]` by NumPy basic slicing (clamped at the array
bounds).  Entries outside the slice are zeroed so that a slice is determined
by the entries it actually selects. -/
def sliceDD (A : Mat) (d : ℕ) : Mat :=
  ⟨min d A.rows, min d A.cols,
    fun i j => if i < min d A.rows ∧ j < min d A.cols then A.entry i j else QC.zero⟩

/-- The column truncation `A[:, :d]`. -/
def colSlice (A : Mat) (d : ℕ) : Mat :=
  ⟨A.rows, min d A.cols,
    fun i j => if i < A.rows ∧ j < min d A.cols then A.entry i j else QC.zero⟩

/-- The two-mode target reshape
`V.reshape(c, c, c, c)[:, :, :d, :d].reshape(c**2, d**2)` of the source, for
`V` of shape `[c², c²]` and `d ≤ c`: row-major index arithmetic sends entry
`(r, b)` of the result to entry `(r, (b/d)·c + b%d)` of `V`. -/
def reshape2Full (V : Mat) (c d : ℕ) : Mat :=
  ⟨c ^ 2, d ^ 2,
    fun r b => if r < c ^ 2 ∧ b < d ^ 2 then V.entry r (b / d * c + b % d) else QC.zero⟩

/-- The two-mode target truncation
`V.reshape(c, c, c, c)[:d, :d, :d, :d].reshape(d**2, d**2)` of
`process_fidelity`, for `V` of shape `[c², c²]` and `d ≤ c`: entry `(a, b)`
of the result is entry `(a/d·c + a%d, b/d·c + b%d)` of `V`. -/
def reshape2V (V : Mat) (c d : ℕ) : Mat :=
  ⟨d ^ 2, d ^ 2,
    fun a b =>
      if a < d ^ 2 ∧ b < d ^ 2 then V.entry (a / d * c + a % d) (b / d * c + b % d)
      else QC.zero⟩

/-- The two-mode learnt truncation
`U.reshape(c, c, d, d)[:d, :d, :d, :d].reshape(d**2, d**2)` of
`process_fidelity`, for `U` of shape `[c², d²]` and `d ≤ c`: entry `(a, b)`
of the result is entry `(a/d·c + a%d, b)` of `U` (the columns are already
`d`-truncated, so the column index is untouched). -/
def reshape2U (U : Mat) (c d : ℕ) : Mat :=
  ⟨d ^ 2, d ^ 2,
    fun a b => if a < d ^ 2 ∧ b < d ^ 2 then U.entry (a / d * c + a % d) b else QC.zero⟩

/-- The Choi-state fidelity kernel of `process_fidelity` on the `D×D`
truncated blocks `Ut`, `Ul` (`D = d^m`):
`|⟨(I⊗Ut)φ, (I⊗Ul)φ⟩|²` with `φ = identity(D).flatten()/√D`.  The two `1/√D`
normalisations multiply to the exact factor `1/D` inside the modulus, hence
the exact division by `D²` of the unnormalised squared modulus. -/
def choiFid (Ut Ul : Mat) (D : ℕ) : ℚ :=
  QC.normSq
      (vdot (matVec (kron (idMat D) Ut) (flattenId D))
        (matVec (kron (idMat D) Ul) (flattenId D))) /
    ((D : ℚ) * (D : ℚ))

/-- `process_fidelity(V, U, cutoff)` of `gates.py`.  For a mode count outside
{1, 2} the source's `if/elif` falls through with `Ut`, `Ul` unbound and the
function raises `UnboundLocalError` (for `m = 0` already the computation of
`d` divides by zero): modelled as `none`. -/
def process_fidelity (V U : Mat) (cutoff : ℕ) : Option ℚ :=
  match get_modes V cutoff with
  | none => none
  | some m =>
    if m = 1 then
      some (choiFid (sliceDD V (dOf 1 U.cols)) (sliceDD U (dOf 1 U.cols)) (dOf 1 U.cols))
    else if m = 2 then
      some
        (choiFid (reshape2V V cutoff (dOf 2 U.cols)) (reshape2U U cutoff (dOf 2 U.cols))
          (dOf 2 U.cols ^ 2))
    else none

/-- `average_fidelity(V, U, cutoff)` of `gates.py`: the closed-form
`(Fe·d + 1)/(d + 1)` applied to the process fidelity `Fe`, with
`d = np.int(U.shape[1]**(1/m))`; a crash of `process_fidelity` propagates. -/
def average_fidelity (V U : Mat) (cutoff : ℕ) : Option ℚ :=
  match get_modes V cutoff with
  | none => none
  | some m =>
    (process_fidelity V U cutoff).map
      (fun Fe => (Fe * (dOf m U.cols : ℚ) + 1) / ((dOf m U.cols : ℚ) + 1))

/-- The specification's description of the `min_cutoff` scan (refinement
side, following the spec's words): the result is `n + 1` for the first
(largest) `n` in the scanned range `(gate_cutoff, cutoff]` whose column-norm
gap exceeds `p`, and `gate_cutoff + 1` when no scanned `n` exceeds `p`. -/
def spec_min_cutoff (U : Mat) (p : ℚ) (gate_cutoff cutoff : ℕ) : ℕ :=
  if Nat.findGreatest
      (fun n =>
        gate_cutoff < n ∧
          normDropExceeds U p gate_cutoff ((get_modes U cutoff).getD 0) n = true)
      cutoff = 0 then
    gate_cutoff + 1
  else
    Nat.findGreatest
        (fun n =>
          gate_cutoff < n ∧
            normDropExceeds U p gate_cutoff ((get_modes U cutoff).getD 0) n = true)
        cutoff + 1

/-- The two-mode equal superposition state `np.full([d**2], 1/d)` (the
entrywise square of the one-mode `1/√d` normalisation, hence exactly
rational). -/
def eqSupState (d : ℕ) : List QC :=
  (List.range (d ^ 2)).map (fun _ => (⟨1 / (d : ℚ), 0⟩ : QC))

/-- A state vector as returned by `unitary_state_fidelity`, in scaled
representation: the pair `(v, k)` denotes the vector `v / √k` entrywise.
The source's states carry the irrational normalisation `1/√d` of the equal
superposition state; factoring it out keeps every entry rational. -/
def ScaledState : Type := List QC × ℕ

/-- `unitary_state_fidelity(V, U, cutoff)` of `gates.py`.

For one mode: `state1 = np.sum(V[:, :d], axis=1)/np.sqrt(d)` and
`state2 = np.sum(U, axis=1)/np.sqrt(d)`, returned here as the column-sum
vectors tagged with scale `d`; the fidelity
`|np.vdot(state1, state2)|²` equals the squared modulus of the unscaled
inner product divided by the exact factor `d²`.

For two modes: `state1 = Ut @ eq`, `state2 = U @ eq` with
`Ut = V.reshape(c,c,c,c)[:, :, :d, :d].reshape(c**2, d**2)` and `eq` the
uniform vector with the `d²` entries `1/d`; these are exactly rational, so
they carry scale tag `1`.

For a mode count outside {1, 2} the source raises `UnboundLocalError`
(`state1`, `state2` unbound): modelled as `none`. -/
def unitary_state_fidelity (V U : Mat) (cutoff : ℕ) :
    Option (ScaledState × ScaledState × ℚ) :=
  match get_modes V cutoff with
  | none => none
  | some m =>
    if m = 1 then
      some
      (((List.range V.rows).map (fun i => sumQC (min (dOf 1 U.cols) V.cols) (fun j => V.entry i j)),
          dOf 1 U.cols),
        ((List.range U.rows).map (fun i => sumQC U.cols (fun j => U.entry i j)), dOf 1 U.cols),
        QC.normSq
            (vdot
              ((List.range V.rows).map
                (fun i => sumQC (min (dOf 1 U.cols) V.cols) (fun j => V.entry i j)))
              ((List.range U.rows).map (fun i => sumQC U.cols (fun j => U.entry i j)))) /
          ((dOf 1 U.cols : ℚ) * (dOf 1 U.cols : ℚ)))
    else if m = 2 then
      some
        ((matVec (reshape2Full V cutoff (dOf 2 U.cols)) (eqSupState (dOf 2 U.cols)), 1),
          (matVec U (eqSupState (dOf 2 U.cols)), 1),
          QC.normSq
            (vdot (matVec (reshape2Full V cutoff (dOf 2 U.cols)) (eqSupState (dOf 2 U.cols)))
              (matVec U (eqSupState (dOf 2 U.cols)))))
    else none

/-- One Monte-Carlo trial of `sample_average_fidelity`:
`|W[:,0].conj().T @ Ut.conj().T @ U @ W[:,0]|²`, computed as
`|⟨Ut·w₀, U·w₀⟩|²` with `w₀` the first column of `W`. -/
def safSample (Ut U Wi : Mat) (dim : ℕ) : ℚ :=
  QC.normSq
    (vdot (matVec Ut ((List.range dim).map (fun r => Wi.entry r 0)))
      (matVec U ((List.range dim).map (fun r => Wi.entry r 0))))

/-- `sample_average_fidelity(V, U, cutoff, samples)` of `gates.py`.  The
Haar-random interferometers drawn inside the loop are an external random
source; they are injected here as the explicit stream `W` (trial `i` uses
`W i`).  For a mode count outside {1, 2} the source's `if/elif` falls
through with `Ut` unbound and the first loop iteration raises
`UnboundLocalError` (and with `samples = 0` the mean of an empty list is a
NaN, not a number): modelled as `none`. -/
def sample_average_fidelity (V U : Mat) (cutoff : ℕ) (W : ℕ → Mat) (samples : ℕ) :
    Option ℚ :=
  match get_modes V cutoff with
  | none => none
  | some m =>
    if m = 1 then
      some
        (sumQ samples (fun i => safSample (colSlice V (dOf 1 U.cols)) U (W i) (dOf 1 U.cols)) /
          (samples : ℚ))
    else if m = 2 then
      some
        (sumQ samples
            (fun i =>
              safSample (reshape2Full V cutoff (dOf 2 U.cols)) U (W i) (dOf 2 U.cols ^ 2)) /
          (samples : ℚ))
    else none

/-- The all-ones 2×2 matrix (used as a concrete scan input). -/
def allOnes2 : Mat := ⟨2, 2, fun _ _ => QC.one⟩

/-- The 10×2 all-zero matrix: the learnt unitary of the spec's concrete
scenario `U = np.zeros([10, 2])`. -/
def zeros10x2 : Mat := ⟨10, 2, fun _ _ => QC.zero⟩

/-- A concrete 2×1 learnt unitary: the first column of the 2×2 identity. -/
def colId21 : Mat := ⟨2, 1, fun i j => if i = j then QC.one else QC.zero⟩

/-- A 2×2 matrix agreeing with the identity on the top-left 1×1 block only. -/
def idTweak2 : Mat := ⟨2, 2, fun i j => if i = 0 ∧ j = 0 then QC.one else ⟨7, 0⟩⟩

/-- A 2×1 matrix agreeing with `colId21` on the top-left 1×1 block only. -/
def colTweak21 : Mat := ⟨2, 1, fun i j => if i = 0 ∧ j = 0 then QC.one else ⟨3, 0⟩⟩

-- Bridge from the fuelled integer logarithm to `Nat.log`.
theorem ilogAux_eq_log (b : ℕ) : ∀ fuel r, r ≤ fuel → ilogAux b fuel r = Nat.log b r := by
  intro fuel
  induction fuel with
  | zero =>
    intro r hr
    interval_cases r
    simp [ilogAux]
  | succ n ih =>
    intro r hr
    by_cases h : 2 ≤ b ∧ b ≤ r
    · have hb : 1 < b := h.1
      have hbr : b ≤ r := h.2
      have hr0 : 0 < r := lt_of_lt_of_le (Nat.lt_of_lt_of_le Nat.zero_lt_two h.1) hbr
      have hdiv : r / b < r := Nat.div_lt_self hr0 hb
      have hdiv' : r / b ≤ n := by omega
      rw [ilogAux, if_pos h, ih _ hdiv', Nat.log_of_one_lt_of_le hb hbr]
    · rw [ilogAux, if_neg h]
      rcases Nat.lt_or_ge r b with hlt | hge
      · exact (Nat.log_eq_zero_iff.2 (Or.inl hlt)).symm
      · have : b ≤ 1 := by omega
        exact (Nat.log_eq_zero_iff.2 (Or.inr this)).symm

-- Where Python's `get_modes` has a value (cutoff ≠ 1, at least one row),
-- it is the integer logarithm.
theorem get_modes_eq_log (U : Mat) (c : ℕ) (hc : c ≠ 1) (hr : U.rows ≠ 0) :
    get_modes U c = some (Nat.log c U.rows) := by
  unfold get_modes
  rw [if_neg (by omega), ilogAux_eq_log c U.rows U.rows le_rfl]

-- Loosening the precision threshold weakens the per-step break condition.
theorem normDropExceeds_mono (U : Mat) (p1 p2 : ℚ) (gc m n : ℕ) (h12 : p1 ≤ p2)
    (h : normDropExceeds U p2 gc m n = true) : normDropExceeds U p1 gc m n = true := by
  unfold normDropExceeds at h ⊢
  rw [List.any_eq_true] at h ⊢
  obtain ⟨j, hj, hcond⟩ := h
  refine ⟨j, hj, ?_⟩
  rw [decide_eq_true_eq] at hcond ⊢
  obtain ⟨hp, hs⟩ := hcond
  have key : (1 - p2) * (1 - p2) ≤ (1 - p1) * (1 - p1) := by nlinarith
  exact ⟨by linarith, by linarith⟩

-- Any value returned by the scan loop lies in `(gc, n+1] ∪ {gc+1}`.
theorem mcLoop_bound (U : Mat) (p : ℚ) (gc m : ℕ) :
    ∀ n r, mcLoop U p gc m n = some r → gc < r ∧ (r ≤ n + 1 ∨ r = gc + 1) := by
  intro n
  induction n with
  | zero =>
    intro r hr
    simp only [mcLoop, Option.some.injEq] at hr
    omega
  | succ n ih =>
    intro r hr
    rw [mcLoop] at hr
    by_cases h1 : n + 1 ≤ gc
    · rw [if_pos h1] at hr
      simp only [Option.some.injEq] at hr
      omega
    · rw [if_neg h1] at hr
      by_cases h2 : min (gc ^ m) U.cols = 0
      · rw [if_pos h2] at hr
        exact absurd hr (by simp)
      · rw [if_neg h2] at hr
        by_cases h3 : normDropExceeds U p gc m (n + 1) = true
        · rw [if_pos h3] at hr
          simp only [Option.some.injEq] at hr
          omega
        · rw [if_neg h3] at hr
          obtain ⟨hgc, hb⟩ := ih r hr
          exact ⟨hgc, by omega⟩

-- The scan loop is antitone in the precision threshold.
theorem mcLoop_antitone (U : Mat) (p1 p2 : ℚ) (gc m : ℕ) (h12 : p1 ≤ p2) :
    ∀ n r1 r2, mcLoop U p1 gc m n = some r1 → mcLoop U p2 gc m n = some r2 → r2 ≤ r1 := by
  intro n
  induction n with
  | zero =>
    intro r1 r2 h1 h2
    simp only [mcLoop, Option.some.injEq] at h1 h2
    omega
  | succ n ih =>
    intro r1 r2 h1 h2
    rw [mcLoop] at h1 h2
    by_cases hgc : n + 1 ≤ gc
    · rw [if_pos hgc] at h1 h2
      simp only [Option.some.injEq] at h1 h2
      omega
    · rw [if_neg hgc] at h1 h2
      by_cases hc : min (gc ^ m) U.cols = 0
      · rw [if_pos hc] at h1
        exact absurd h1 (by simp)
      · rw [if_neg hc] at h1 h2
        by_cases hex2 : normDropExceeds U p2 gc m (n + 1) = true
        · have hex1 := normDropExceeds_mono U p1 p2 gc m (n + 1) h12 hex2
          rw [if_pos hex1] at h1
          rw [if_pos hex2] at h2
          simp only [Option.some.injEq] at h1 h2
          omega
        · rw [if_neg hex2] at h2
          by_cases hex1 : normDropExceeds U p1 gc m (n + 1) = true
          · rw [if_pos hex1] at h1
            simp only [Option.some.injEq] at h1
            obtain ⟨-, hb⟩ := mcLoop_bound U p2 gc m n r2 h2
            omega
          · rw [if_neg hex1] at h1
            exact ih r1 r2 h1 h2

-- The scan loop returns one past the largest exceeding step, or `gc + 1`.
theorem mcLoop_eq_findGreatest (U : Mat) (p : ℚ) (gc m : ℕ)
    (hcols : min (gc ^ m) U.cols ≠ 0) :
    ∀ n,
      mcLoop U p gc m n =
        some
          (if Nat.findGreatest (fun j => gc < j ∧ normDropExceeds U p gc m j = true) n = 0 then
            gc + 1
          else Nat.findGreatest (fun j => gc < j ∧ normDropExceeds U p gc m j = true) n + 1) := by
  intro n
  induction n with
  | zero =>
    simp [mcLoop]
  | succ n ih =>
    rw [mcLoop]
    by_cases hgc : n + 1 ≤ gc
    · rw [if_pos hgc]
      have hz : Nat.findGreatest (fun j => gc < j ∧ normDropExceeds U p gc m j = true) (n + 1)
          = 0 := by
        rw [Nat.findGreatest_eq_zero_iff]
        intro k hk0 hk hP
        omega
      rw [hz]
      simp
    · rw [if_neg hgc, if_neg hcols]
      by_cases hex : normDropExceeds U p gc m (n + 1) = true
      · rw [if_pos hex]
        have hP : gc < n + 1 ∧ normDropExceeds U p gc m (n + 1) = true := ⟨by omega, hex⟩
        have hfg : Nat.findGreatest (fun j => gc < j ∧ normDropExceeds U p gc m j = true) (n + 1)
            = n + 1 := Nat.findGreatest_eq hP
        rw [hfg]
        simp
      · rw [if_neg hex]
        have hP : ¬(gc < n + 1 ∧ normDropExceeds U p gc m (n + 1) = true) := by
          intro h
          exact hex h.2
        rw [Nat.findGreatest_of_not hP]
        exact ih

/-- C1 (amended): for every nonempty matrix `U` (at least one row and one
column), precision `p`, and cutoffs `1 ≤ gate_cutoff < cutoff`, `min_cutoff`
scans `n` downward from `cutoff` to `gate_cutoff + 1`, returns `n + 1` at
the first (largest) `n` whose maximal column-norm gap over the first
`gate_cutoff^m` columns, restricted to the first `n^m` rows, exceeds `p`,
and returns `gate_cutoff + 1` when no scanned `n` exceeds `p`. -/
theorem min_cutoff_scan_correct (U : Mat) (p : ℚ) (gc c : ℕ) (hgc1 : 1 ≤ gc) (hgc : gc < c)
    (hU : 1 ≤ U.cols) (hrows : 1 ≤ U.rows) :
    min_cutoff U p gc c = some (spec_min_cutoff U p gc c) := by
  have hg : get_modes U c = some (ilogAux c U.rows U.rows) := by
    unfold get_modes
    rw [if_neg (by omega)]
  have hcols : min (gc ^ ilogAux c U.rows U.rows) U.cols ≠ 0 := by
    have h1 : 1 ≤ gc ^ ilogAux c U.rows U.rows := Nat.one_le_pow _ _ (by omega)
    omega
  rw [min_cutoff]
  unfold spec_min_cutoff
  simp only [hg, Option.getD_some]
  exact mcLoop_eq_findGreatest U p gc (ilogAux c U.rows U.rows) hcols c

/-- C1 counterexample: at `gate_cutoff = 0 < cutoff = 2` the scanned column
range `U[:, :0**1]` is empty, so `max` is applied to an empty sequence and
`min_cutoff` raises `ValueError` instead of returning any integer. -/
theorem min_cutoff_gc_zero_cex : min_cutoff allOnes2 (1 / 2) 0 2 = none := by
  norm_num [min_cutoff, mcLoop, get_modes, ilogAux, allOnes2]

/-- C1 witness: the characterisation applied to the 2×2 all-ones matrix with
`p = 1/2`, `gate_cutoff = 1`, `cutoff = 2`. -/
theorem min_cutoff_scan_correct_witness :
    min_cutoff allOnes2 (1 / 2) 1 2 = some (spec_min_cutoff allOnes2 (1 / 2) 1 2) :=
  min_cutoff_scan_correct allOnes2 (1 / 2) 1 2 (by norm_num) (by norm_num)
    (by norm_num [allOnes2]) (by norm_num [allOnes2])

/-- C2: whenever `min_cutoff(U, p, gate_cutoff, cutoff)` returns a result
`r`, it satisfies `gate_cutoff < r` and `r ≤ cutoff + 1`. -/
theorem min_cutoff_range (U : Mat) (p : ℚ) (gc c r : ℕ) (hgc : gc < c) (hp0 : 0 < p)
    (hp1 : p < 1) (h : min_cutoff U p gc c = some r) : gc < r ∧ r ≤ c + 1 := by
  rw [min_cutoff] at h
  cases hg : get_modes U c with
  | none =>
    rw [hg] at h
    exact absurd h (by simp)
  | some m =>
    rw [hg] at h
    obtain ⟨h1, h2⟩ := mcLoop_bound U p gc m c r h
    exact ⟨h1, by omega⟩

/-- C2 witness: the range bound at the 2×2 identity with `p = 1/2`,
`gate_cutoff = 1`, `cutoff = 2`. -/
theorem min_cutoff_range_witness :
    min_cutoff (idMat 2) (1 / 2) 1 2 = some 2 ∧ 1 < 2 ∧ 2 ≤ 2 + 1 := by
  have h : min_cutoff (idMat 2) (1 / 2) 1 2 = some 2 := by
    norm_num [min_cutoff, mcLoop, get_modes, ilogAux, normDropExceeds, colSqNorm, sumQ,
      QC.normSq, idMat, QC.one, QC.zero, List.range_succ]
  exact ⟨h, min_cutoff_range (idMat 2) (1 / 2) 1 2 2 (by norm_num) (by norm_num) (by norm_num) h⟩

/-- C3: for `m ∈ {1, 2}` and valid cutoffs `1 ≤ d < c`, `get_modes` applied
to a matrix with `c^m` rows and the per-mode cutoff `c` returns exactly `m`. -/
theorem get_modes_pow (c d m : ℕ) (U : Mat) (hm : m = 1 ∨ m = 2) (hd : 1 ≤ d) (hdc : d < c)
    (hU : U.rows = c ^ m) : get_modes U c = some m := by
  have hr : U.rows ≠ 0 := by
    rw [hU]
    exact pow_ne_zero m (by omega)
  rw [get_modes_eq_log U c (by omega) hr, hU, Nat.log_pow (by omega)]

/-- C3 witness: a 9×9 matrix at per-mode cutoff 3 has two modes. -/
theorem get_modes_pow_witness : get_modes (idMat 9) 3 = some 2 :=
  get_modes_pow 3 2 2 (idMat 9) (Or.inr rfl) (by norm_num) (by norm_num) rfl

/-- C5: `min_cutoff` is antitone in the precision threshold: for
`p1 ≤ p2` in `(0, 1)`, the result for `p2` never exceeds the result for
`p1`. -/
theorem min_cutoff_antitone (U : Mat) (p1 p2 : ℚ) (gc c r1 r2 : ℕ) (hgc : gc < c)
    (hp0 : 0 < p1) (h12 : p1 ≤ p2) (hp1 : p2 < 1) (h1 : min_cutoff U p1 gc c = some r1)
    (h2 : min_cutoff U p2 gc c = some r2) : r2 ≤ r1 := by
  rw [min_cutoff] at h1 h2
  cases hg : get_modes U c with
  | none =>
    rw [hg] at h1
    exact absurd h1 (by simp)
  | some m =>
    rw [hg] at h1 h2
    exact mcLoop_antitone U p1 p2 gc m h12 c r1 r2 h1 h2

/-- C5 witness: antitonicity at the 2×2 identity with `p1 = 1/3 ≤ p2 = 1/2`. -/
theorem min_cutoff_antitone_witness :
    min_cutoff (idMat 2) (1 / 3) 1 2 = some 2 ∧ min_cutoff (idMat 2) (1 / 2) 1 2 = some 2 ∧
      2 ≤ 2 := by
  have ha : min_cutoff (idMat 2) (1 / 3) 1 2 = some 2 := by
    norm_num [min_cutoff, mcLoop, get_modes, ilogAux, normDropExceeds, colSqNorm, sumQ,
      QC.normSq, idMat, QC.one, QC.zero, List.range_succ]
  have hb : min_cutoff (idMat 2) (1 / 2) 1 2 = some 2 := by
    norm_num [min_cutoff, mcLoop, get_modes, ilogAux, normDropExceeds, colSqNorm, sumQ,
      QC.normSq, idMat, QC.one, QC.zero, List.range_succ]
  exact ⟨ha, hb,
    min_cutoff_antitone (idMat 2) (1 / 3) (1 / 2) 1 2 2 2 (by norm_num) (by norm_num)
      (by norm_num) (by norm_num) ha hb⟩

/-- C9 (amended): when `gate_cutoff ≥ cutoff`, provided `cutoff ≠ 1` and `U`
has at least one row (so that `get_modes`, which runs before the loop,
returns), the scan range of `min_cutoff` is empty and the no-break branch
returns `gate_cutoff + 1` for every such matrix `U` and precision `p`; the
entries of `U` are never read. -/
theorem min_cutoff_empty_scan (U : Mat) (p : ℚ) (gc c : ℕ) (h : c ≤ gc) (hc : c ≠ 1)
    (hr : 1 ≤ U.rows) : min_cutoff U p gc c = some (gc + 1) := by
  have hg : get_modes U c = some (ilogAux c U.rows U.rows) := by
    unfold get_modes
    rw [if_neg (by omega)]
  rw [min_cutoff]
  simp only [hg]
  cases c with
  | zero => rfl
  | succ n => rw [mcLoop, if_pos h]

/-- C9 counterexample: at `cutoff = 1 ≤ gate_cutoff = 1` the call crashes
for every matrix: `get_modes` runs before the loop and
`int(np.log(rows)/np.log(1))` is `int(inf)` (or `int(nan)`), which raises
`OverflowError`/`ValueError`, so `min_cutoff` does not return
`gate_cutoff + 1 = 2`. -/
theorem min_cutoff_cutoff_one_cex : min_cutoff (idMat 2) (1 / 2) 1 1 = none := by
  rfl

/-- C9 witness: `gate_cutoff = 3 ≥ cutoff = 2` yields `4` at the 2×2
all-ones matrix. -/
theorem min_cutoff_empty_scan_witness :
    (2 ≤ 3 ∧ (2 : ℕ) ≠ 1 ∧ 1 ≤ allOnes2.rows) ∧
      min_cutoff allOnes2 (1 / 2) 3 2 = some (3 + 1) :=
  ⟨⟨by norm_num, by norm_num, by norm_num [allOnes2]⟩,
    min_cutoff_empty_scan allOnes2 (1 / 2) 3 2 (by norm_num) (by norm_num)
      (by norm_num [allOnes2])⟩

-- A matrix with exactly `c` rows has one mode at per-mode cutoff `c ≥ 2`.
theorem get_modes_of_rows_self (U : Mat) (c : ℕ) (hc : 2 ≤ c) (h : U.rows = c) :
    get_modes U c = some 1 := by
  rw [get_modes_eq_log U c (by omega) (by omega), h]
  have hp := Nat.log_pow (show 1 < c by omega) 1
  rw [pow_one] at hp
  rw [hp]

-- When the inferred mode count is 1, `process_fidelity` is the Choi kernel
-- on the `[:d, :d]` slices.
theorem process_fidelity_mode1 (V U : Mat) (c : ℕ) (hm : get_modes V c = some 1) :
    process_fidelity V U c =
      some (choiFid (sliceDD V (dOf 1 U.cols)) (sliceDD U (dOf 1 U.cols)) (dOf 1 U.cols)) := by
  rw [process_fidelity, hm]
  rfl

-- When the inferred mode count is 2, `process_fidelity` is the Choi kernel
-- on the reshaped `[:d, :d, :d, :d]` sub-tensors.
theorem process_fidelity_mode2 (V U : Mat) (c : ℕ) (hm : get_modes V c = some 2) :
    process_fidelity V U c =
      some
        (choiFid (reshape2V V c (dOf 2 U.cols)) (reshape2U U c (dOf 2 U.cols))
          (dOf 2 U.cols ^ 2)) := by
  rw [process_fidelity, hm]
  rfl

-- The concrete scenario of the spec: target `identity(10)`, learnt
-- `zeros([10, 2])`, cutoff 10; the process fidelity is exactly 0.
theorem pf_id10_zeros_eq_zero : process_fidelity (idMat 10) zeros10x2 10 = some 0 := by
  have hm : get_modes (idMat 10) 10 = some 1 := by decide
  rw [process_fidelity_mode1 (idMat 10) zeros10x2 10 hm]
  norm_num [choiFid, dOf, sliceDD, idMat, zeros10x2, kron, matVec, vdot, flattenId, sumQC,
    QC.add, QC.mul, QC.conj, QC.normSq, QC.zero, QC.one, List.range_succ]

/-- C4: `average_fidelity(V, U, cutoff)` is exactly
`(Fe·d + 1)/(d + 1)` where `Fe` is the process fidelity and `d` the gate
truncation derived from `U`'s column count; it performs no independent
fidelity computation. -/
theorem average_fidelity_eq_process (V U : Mat) (c : ℕ) (Fe : ℚ)
    (h : process_fidelity V U c = some Fe) :
    average_fidelity V U c =
      some
        ((Fe * (dOf ((get_modes V c).getD 0) U.cols : ℚ) + 1) /
          ((dOf ((get_modes V c).getD 0) U.cols : ℚ) + 1)) := by
  cases hg : get_modes V c with
  | none =>
    rw [process_fidelity, hg] at h
    exact absurd h (by simp)
  | some m =>
    rw [average_fidelity, hg, h]
    simp

/-- C4 witness: the conversion applied to the spec's concrete scenario. -/
theorem average_fidelity_eq_process_witness :
    process_fidelity (idMat 10) zeros10x2 10 = some 0 ∧
      average_fidelity (idMat 10) zeros10x2 10 =
        some
          ((0 * (dOf ((get_modes (idMat 10) 10).getD 0) zeros10x2.cols : ℚ) + 1) /
            ((dOf ((get_modes (idMat 10) 10).getD 0) zeros10x2.cols : ℚ) + 1)) :=
  ⟨pf_id10_zeros_eq_zero,
    average_fidelity_eq_process (idMat 10) zeros10x2 10 0 pf_id10_zeros_eq_zero⟩

/-- C6 (at the failing input): for an 8×8 target at cutoff 2 the inferred
mode count is 3, and all three fidelity functions fall through the
`if/elif` with their locals unbound — the Python code raises
`UnboundLocalError`, not the `UnsupportedModeCount` error the spec
requires; in the embedding all three results are `none`. -/
theorem mode_fallthrough_no_typed_error :
    unitary_state_fidelity (idMat 8) (idMat 8) 2 = none ∧
      sample_average_fidelity (idMat 8) (idMat 8) 2 (fun _ => idMat 8) 10000 = none ∧
      process_fidelity (idMat 8) (idMat 8) 2 = none := by
  have hm : get_modes (idMat 8) 2 = some 3 := by decide
  refine ⟨?_, ?_, ?_⟩ <;>
    simp [unitary_state_fidelity, sample_average_fidelity, process_fidelity, hm]

/-- C7: in the single-mode case with target `V` of shape `[c, c]` and learnt
`U` of shape `[c, d]`, `unitary_state_fidelity` returns the states
`state1 = (Σ_{j<d} V[:, j])/√d` and `state2 = (Σ_j U[:, j])/√d` (here in
scaled representation: the column-sum vectors tagged with scale `d`), and
the fidelity `|⟨state1, state2⟩|²`, whose exact value is the squared modulus
of the unscaled inner product divided by `d²`. -/
theorem unitary_state_fidelity_single_mode (c d : ℕ) (V U : Mat) (hc : 2 ≤ c) (hd : 1 ≤ d)
    (hdc : d ≤ c) (hVr : V.rows = c) (hVc : V.cols = c) (hUr : U.rows = c) (hUc : U.cols = d) :
    unitary_state_fidelity V U c =
      some
        (((List.range c).map (fun i => sumQC d (fun j => V.entry i j)), d),
          ((List.range c).map (fun i => sumQC d (fun j => U.entry i j)), d),
          QC.normSq
              (vdot ((List.range c).map (fun i => sumQC d (fun j => V.entry i j)))
                ((List.range c).map (fun i => sumQC d (fun j => U.entry i j)))) /
            ((d : ℚ) * (d : ℚ))) := by
  have hm : get_modes V c = some 1 := get_modes_of_rows_self V c hc hVr
  rw [unitary_state_fidelity, hm]
  simp only [dOf, hUc, hVc, hVr, hUr, min_eq_left hdc, if_true]

/-- C7 witness: the single-mode state fidelity at `V = identity(2)`,
`U` the first column of the identity, `c = 2`, `d = 1`. -/
theorem unitary_state_fidelity_single_mode_witness :
    unitary_state_fidelity (idMat 2) colId21 2 =
      some
        (((List.range 2).map (fun i => sumQC 1 (fun j => (idMat 2).entry i j)), 1),
          ((List.range 2).map (fun i => sumQC 1 (fun j => colId21.entry i j)), 1),
          QC.normSq
              (vdot ((List.range 2).map (fun i => sumQC 1 (fun j => (idMat 2).entry i j)))
                ((List.range 2).map (fun i => sumQC 1 (fun j => colId21.entry i j)))) /
            ((1 : ℚ) * (1 : ℚ))) :=
  unitary_state_fidelity_single_mode 2 1 (idMat 2) colId21 (by norm_num) (by norm_num)
    (by norm_num) rfl rfl rfl rfl

/-- C8: with `V = identity(10)` and `U` the 10×2 zero matrix (`c = 10`,
`d = 2`, `m = 1`), the process fidelity is exactly `0` and the average
fidelity is exactly `1/3`. -/
theorem fidelity_concrete_scenario :
    process_fidelity (idMat 10) zeros10x2 10 = some 0 ∧
      average_fidelity (idMat 10) zeros10x2 10 = some (1 / 3) := by
  refine ⟨pf_id10_zeros_eq_zero, ?_⟩
  have hm : get_modes (idMat 10) 10 = some 1 := by decide
  rw [average_fidelity, hm, pf_id10_zeros_eq_zero]
  norm_num [dOf, zeros10x2]

/-- C10: `process_fidelity` depends only on the entries selected by the
`d`-truncation of its matrix arguments: for pairs of the same shapes that
agree on the top-left `d×d` blocks (one mode) or on the
`[:d, :d, :d, :d]` sub-tensors (two modes, `d = ⌊√cols⌋`), the returned
fidelity is identical. -/
theorem process_fidelity_block_determined (c : ℕ) (V U V' U' : Mat)
    (hVr : V'.rows = V.rows) (hVc : V'.cols = V.cols) (hUr : U'.rows = U.rows)
    (hUc : U'.cols = U.cols)
    (hcase :
      (get_modes V c = some 1 ∧
          (∀ i j, i < U.cols → j < U.cols → V.entry i j = V'.entry i j) ∧
          (∀ i j, i < U.cols → j < U.cols → U.entry i j = U'.entry i j)) ∨
        (get_modes V c = some 2 ∧
          (∀ a b, a < isqrt U.cols ^ 2 → b < isqrt U.cols ^ 2 →
            V.entry (a / isqrt U.cols * c + a % isqrt U.cols)
                (b / isqrt U.cols * c + b % isqrt U.cols) =
              V'.entry (a / isqrt U.cols * c + a % isqrt U.cols)
                (b / isqrt U.cols * c + b % isqrt U.cols)) ∧
          (∀ a b, a < isqrt U.cols ^ 2 → b < isqrt U.cols ^ 2 →
            U.entry (a / isqrt U.cols * c + a % isqrt U.cols) b =
              U'.entry (a / isqrt U.cols * c + a % isqrt U.cols) b))) :
    process_fidelity V U c = process_fidelity V' U' c := by
  have hm' : get_modes V' c = get_modes V c := by
    unfold get_modes
    rw [hVr]
  rcases hcase with ⟨hm, hagV, hagU⟩ | ⟨hm, hagV, hagU⟩
  · have e1 : sliceDD V (dOf 1 U.cols) = sliceDD V' (dOf 1 U.cols) := by
      unfold sliceDD
      simp only [dOf, hUc, hVr, hVc]
      congr 1
      funext i j
      by_cases hin : i < min U.cols V.rows ∧ j < min U.cols V.cols
      · rw [if_pos hin, if_pos hin]
        exact hagV i j (lt_of_lt_of_le hin.1 (min_le_left _ _))
          (lt_of_lt_of_le hin.2 (min_le_left _ _))
      · rw [if_neg hin, if_neg hin]
    have e2 : sliceDD U (dOf 1 U.cols) = sliceDD U' (dOf 1 U.cols) := by
      unfold sliceDD
      simp only [dOf, hUc, hUr]
      congr 1
      funext i j
      by_cases hin : i < min U.cols U.rows ∧ j < min U.cols U.cols
      · rw [if_pos hin, if_pos hin]
        exact hagU i j (lt_of_lt_of_le hin.1 (min_le_left _ _))
          (lt_of_lt_of_le hin.2 (min_le_left _ _))
      · rw [if_neg hin, if_neg hin]
    rw [process_fidelity_mode1 V U c hm, process_fidelity_mode1 V' U' c (hm'.trans hm), hUc,
      e1, e2]
  · have e1 : reshape2V V c (dOf 2 U.cols) = reshape2V V' c (dOf 2 U.cols) := by
      unfold reshape2V
      simp only [dOf, hUc]
      congr 1
      funext a b
      by_cases hin : a < isqrt U.cols ^ 2 ∧ b < isqrt U.cols ^ 2
      · rw [if_pos hin, if_pos hin]
        exact hagV a b hin.1 hin.2
      · rw [if_neg hin, if_neg hin]
    have e2 : reshape2U U c (dOf 2 U.cols) = reshape2U U' c (dOf 2 U.cols) := by
      unfold reshape2U
      simp only [dOf, hUc]
      congr 1
      funext a b
      by_cases hin : a < isqrt U.cols ^ 2 ∧ b < isqrt U.cols ^ 2
      · rw [if_pos hin, if_pos hin]
        exact hagU a b hin.1 hin.2
      · rw [if_neg hin, if_neg hin]
    rw [process_fidelity_mode2 V U c hm, process_fidelity_mode2 V' U' c (hm'.trans hm), hUc,
      e1, e2]

/-- C10 witness: two pairs of 2×2/2×1 matrices agreeing only on the entries
selected by the `d = 1` truncation have equal process fidelity. -/
theorem process_fidelity_block_determined_witness :
    process_fidelity (idMat 2) colId21 2 = process_fidelity idTweak2 colTweak21 2 := by
  have hag1 : ∀ i j, i < colId21.cols → j < colId21.cols →
      (idMat 2).entry i j = idTweak2.entry i j := by
    intro i j hi hj
    have hi0 : i = 0 := by
      simpa [colId21] using hi
    have hj0 : j = 0 := by
      simpa [colId21] using hj
    subst hi0
    subst hj0
    rfl
  have hag2 : ∀ i j, i < colId21.cols → j < colId21.cols →
      colId21.entry i j = colTweak21.entry i j := by
    intro i j hi hj
    have hi0 : i = 0 := by
      simpa [colId21] using hi
    have hj0 : j = 0 := by
      simpa [colId21] using hj
    subst hi0
    subst hj0
    rfl
  exact process_fidelity_block_determined 2 (idMat 2) colId21 idTweak2 colTweak21 rfl rfl rfl
    rfl (Or.inl ⟨by decide, hag1, hag2⟩)
